import Mathlib

/-!
# Verification of the blogfolio-types contract layer

Shallow embedding of the repository's error-identity registry, error-string
codec, error-aware validator factory, schema error aggregator, response
envelope builders and delimited query-array parser, with theorems checking
the natural-language specification against the code.

Strings are modelled as `List Char`; JavaScript regular-expression
semantics (ASCII `\d`, `\w`, and `.` excluding line terminators) are
embedded explicitly.
-/

/-- Abbreviation turning a Lean string literal into the `List Char` model
used throughout. -/
def cs (s : String) : List Char := s.toList

/- ===================== Error identifiers and the codec ================= -/

/-- An atomic error identifier: numeric code plus message
(src/ResponseError/misc/BaseErrorID). Codes are non-negative integers. -/
structure BaseErrorID where
  code : Nat
  message : List Char
deriving DecidableEq, Repr

/-- JavaScript `.` (without the `s` flag): any character except the four
line terminators `\n`, `\r`, U+2028 and U+2029. -/
def jsDot (c : Char) : Bool :=
  !(c = '\n' || c = '\r' || c = Char.ofNat 0x2028 || c = Char.ofNat 0x2029)

/-- Decimal digit character, mirroring JavaScript number-to-string
conversion for one digit. -/
def digitChar (d : Nat) : Char :=
  match d with
  | 0 => '0' | 1 => '1' | 2 => '2' | 3 => '3' | 4 => '4'
  | 5 => '5' | 6 => '6' | 7 => '7' | 8 => '8' | 9 => '9'
  | _ => '0'

/-- Fuel-driven helper for `natDigits`; the fuel only serves structural
termination and any fuel exceeding the input is enough. -/
def natDigitsAux (fuel : Nat) (n : Nat) : List Char :=
  match fuel with
  | 0 => []
  | fuel + 1 =>
      if n < 10 then [digitChar n]
      else natDigitsAux fuel (n / 10) ++ [digitChar (n % 10)]

/-- Decimal representation of a natural number, mirroring the JavaScript
template interpolation of a non-negative integer in the codec. -/
def natDigits (n : Nat) : List Char := natDigitsAux (n + 1) n

/-- Decimal parsing of a digit string, mirroring JavaScript
`Number(code)` on an all-digit string. -/
def digitsToNat (l : List Char) : Nat :=
  l.foldl (fun a c => a * 10 + (c.toNat - 48)) 0

/-- `stringifyErrorID` from src/ResponseError/ErrorIDString.ts:
the template string `code|message`. -/
def stringifyErrorID (errorID : BaseErrorID) : List Char :=
  natDigits errorID.code ++ '|' :: errorID.message

/-- `parseErrorID` from src/ResponseError/ErrorIDString.ts. The source
tests the string against `^\d+\|.+$` (throwing on mismatch) and then
splits on the lookbehind `(?<=^\d+)\|`, i.e. on the pipe that follows the
leading digit run. Since `\d+` is followed by the non-digit `|`, the
greedy digit prefix is forced, so the digit run is the maximal digit
prefix; `.+` requires one or more non-line-terminator characters up to
the end of the string. Failure is modelled as `none`. -/
def parseErrorID (s : List Char) : Option BaseErrorID :=
  match s.dropWhile Char.isDigit with
  | '|' :: message =>
      if s.takeWhile Char.isDigit ≠ [] ∧ message ≠ [] ∧ message.all jsDot then
        some ⟨digitsToNat (s.takeWhile Char.isDigit), message⟩
      else none
  | _ => none

/- ================= Basic codec lemmas ================= -/

theorem digitChar_isDigit (d : Nat) (h : d < 10) : (digitChar d).isDigit = true := by
  interval_cases d <;> decide

theorem digitChar_toNat (d : Nat) (h : d < 10) : (digitChar d).toNat - 48 = d := by
  interval_cases d <;> decide

theorem digitsToNat_append_singleton (l : List Char) (c : Char) :
    digitsToNat (l ++ [c]) = 10 * digitsToNat l + (c.toNat - 48) := by
  simp [digitsToNat, List.foldl_append]
  ring

theorem natDigitsAux_spec (fuel : Nat) :
    ∀ n, n < fuel →
      (natDigitsAux fuel n).all Char.isDigit = true ∧
      digitsToNat (natDigitsAux fuel n) = n ∧
      natDigitsAux fuel n ≠ [] := by
  induction fuel with
  | zero => intro n h; omega
  | succ fuel ih =>
    intro n hn
    by_cases h : n < 10
    · simp [natDigitsAux, h, digitsToNat, digitChar_isDigit n h, digitChar_toNat n h]
    · have hdiv : n / 10 < fuel := by
        have := Nat.div_lt_self (show 0 < n by omega) (show 1 < 10 by omega)
        omega
      obtain ⟨ha, hv, hne⟩ := ih (n / 10) hdiv
      refine ⟨?_, ?_, by simp [natDigitsAux, h]⟩
      · simp only [natDigitsAux, if_neg h, List.all_append, List.all_cons,
          List.all_nil, Bool.and_eq_true]
        exact ⟨ha, digitChar_isDigit _ (Nat.mod_lt _ (by omega)), trivial⟩
      · simp only [natDigitsAux, if_neg h]
        rw [digitsToNat_append_singleton, hv, digitChar_toNat _ (Nat.mod_lt _ (by omega))]
        omega

theorem natDigits_ne_nil (n : Nat) : natDigits n ≠ [] :=
  (natDigitsAux_spec (n + 1) n (by omega)).2.2

theorem natDigits_all_digit (n : Nat) : (natDigits n).all Char.isDigit = true :=
  (natDigitsAux_spec (n + 1) n (by omega)).1

theorem digitsToNat_natDigits (n : Nat) : digitsToNat (natDigits n) = n :=
  (natDigitsAux_spec (n + 1) n (by omega)).2.1

theorem takeWhile_all_append (p : Char → Bool) (d rest : List Char)
    (hd : d.all p = true) (hr : ∀ c, rest.head? = some c → p c = false) :
    (d ++ rest).takeWhile p = d ∧ (d ++ rest).dropWhile p = rest := by
  induction d with
  | nil =>
    simp only [List.nil_append]
    cases rest with
    | nil => simp
    | cons c t =>
      have := hr c rfl
      simp [List.takeWhile, List.dropWhile, this]
  | cons c t iht =>
    simp only [List.all_cons, Bool.and_eq_true] at hd
    have := iht hd.2
    simp [List.takeWhile, List.dropWhile, hd.1, this.1, this.2]

/-- Prop-level reading of the codec's acceptance regex `^\d+\|.+$` with
JavaScript semantics: a non-empty run of ASCII digits, a pipe, then one
or more characters none of which is a line terminator. -/
def errIDStringFormat (s : List Char) : Prop :=
  ∃ d m, s = d ++ '|' :: m ∧ d ≠ [] ∧ d.all Char.isDigit = true ∧
    m ≠ [] ∧ m.all jsDot = true

theorem parseErrorID_isSome_iff (s : List Char) :
    (parseErrorID s).isSome = true ↔ errIDStringFormat s := by
  constructor
  · intro h
    unfold parseErrorID at h
    split at h
    · next message heq =>
      split at h
      · next hcond =>
        obtain ⟨hd, hm, hall⟩ := hcond
        refine ⟨s.takeWhile Char.isDigit, message, ?_, hd, ?_, hm, hall⟩
        · rw [← heq, List.takeWhile_append_dropWhile]
        · simp only [List.all_eq_true]
          intro c hc
          exact List.mem_takeWhile_imp hc
      · simp at h
    · simp at h
  · rintro ⟨d, m, rfl, hd, hdig, hm, hdot⟩
    have hsplit := takeWhile_all_append Char.isDigit d ('|' :: m) hdig
      (by intro c hc; simp at hc; subst hc; decide)
    unfold parseErrorID
    rw [hsplit.2, hsplit.1]
    simp [hd, hm, hdot]

theorem parseErrorID_stringifyErrorID (id : BaseErrorID)
    (hm : id.message ≠ []) (hdot : id.message.all jsDot = true) :
    parseErrorID (stringifyErrorID id) = some id := by
  obtain ⟨code, message⟩ := id
  have hsplit := takeWhile_all_append Char.isDigit (natDigits code) ('|' :: message)
    (natDigits_all_digit code)
    (by intro c hc; simp at hc; subst hc; decide)
  unfold parseErrorID stringifyErrorID
  simp only at hsplit ⊢
  rw [hsplit.2, hsplit.1]
  simp only [ne_eq, natDigits_ne_nil code, not_false_eq_true, true_and]
  simp only [ne_eq] at hm
  rw [if_pos ⟨hm, hdot⟩, digitsToNat_natDigits]

/-- C1 counterexample: the identifier with code `0` and the non-empty
message consisting of a single newline is a valid `ErrorIdentifier`, yet
`parseErrorID (stringifyErrorID x)` fails rather than returning `x`,
because the acceptance regex `^\d+\|.+$` uses `.`, which does not match
line terminators in JavaScript. -/
theorem roundtrip_fails_on_newline_message :
    stringifyErrorID ⟨0, ['\n']⟩ = cs "0|\n" ∧
    ('\n' :: ([] : List Char)) ≠ [] ∧
    parseErrorID (stringifyErrorID ⟨0, ['\n']⟩) = none := by
  refine ⟨by decide, by decide, by decide⟩

/-- C1 (amended): for every valid `ErrorIdentifier` (non-negative integer
code, non-empty message, including messages containing `|`) whose message
contains no line-terminator character (`\n`, `\r`, U+2028, U+2029),
`parseErrorID (stringifyErrorID x) = x`. -/
theorem codec_roundtrip (id : BaseErrorID)
    (hm : id.message ≠ []) (hdot : id.message.all jsDot = true) :
    parseErrorID (stringifyErrorID id) = some id :=
  parseErrorID_stringifyErrorID id hm hdot

/-- Witness for C1 at the repository's own test identifier, whose message
contains both a comma-rich text and a literal pipe. -/
theorem codec_roundtrip_witness :
    parseErrorID (stringifyErrorID ⟨999, cs "Testing 1, 2, 3! | (message seen)"⟩) =
      some ⟨999, cs "Testing 1, 2, 3! | (message seen)"⟩ :=
  codec_roundtrip ⟨999, cs "Testing 1, 2, 3! | (message seen)"⟩ (by decide) (by decide)

/-- C5: `parseErrorID` succeeds exactly on strings matching `^\d+\|.+$`
(with JavaScript `.` semantics), and in particular fails on `"|test"`
(no code), `"a1|test"` (non-numeric code), `"123|"` (no message) and
`"123test"` (no separator). -/
theorem parse_rejects_malformed :
    (∀ s, (parseErrorID s).isSome = true ↔ errIDStringFormat s) ∧
    parseErrorID (cs "|test") = none ∧
    parseErrorID (cs "a1|test") = none ∧
    parseErrorID (cs "123|") = none ∧
    parseErrorID (cs "123test") = none :=
  ⟨parseErrorID_isSome_iff, by decide, by decide, by decide, by decide⟩

/- ===================== Error identifier registry ===================== -/

/-- Optionally nested mapping from domain names to error identifiers,
the shape accepted by src/ResponseError/misc/uniqueIDTree.ts (leaves must
be `BaseErrorID`s, inner nodes are further mappings). -/
inductive IDTree where
  | leaf (id : BaseErrorID)
  | node (children : List (List Char × IDTree))
deriving Repr

mutual

/-- Leaves of an identifier tree, in tree-walk order, mirroring the
flattening the `Leaves`/`KeysToDotPath` type operators perform. -/
def IDTree.leaves : IDTree → List BaseErrorID
  | .leaf id => [id]
  | .node children => leavesOfChildren children

/-- Leaves of a list of named subtrees. -/
def leavesOfChildren : List (List Char × IDTree) → List BaseErrorID
  | [] => []
  | (_, t) :: rest => t.leaves ++ leavesOfChildren rest

end

/-- Runtime body of `uniqueIDTree` (src/ResponseError/misc/uniqueIDTree.ts
lines 59-82): the function simply returns its argument; all checking
lives in the TypeScript type of its parameter. -/
def uniqueIDTree (errorMap : IDTree) : IDTree := errorMap

/-- Compile-time acceptance of `uniqueIDTree`, embedded as a value-level
check: the parameter type reduces to an uninhabited error tuple exactly
when `MapDuplicateFieldsToErrors` finds two leaves sharing a `code` or
two leaves sharing a `message`; otherwise the call typechecks and the
tree is returned unchanged.  `none` models a rejected construction. -/
def uniqueIDTreeChecked (errorMap : IDTree) : Option IDTree :=
  if ((errorMap.leaves.map BaseErrorID.code).Nodup ∧
      (errorMap.leaves.map BaseErrorID.message).Nodup) then
    some (uniqueIDTree errorMap)
  else none

/-- C2: constructing the registry with two leaves sharing a code fails,
with two leaves sharing a message fails, and with all codes and messages
pairwise distinct succeeds and returns the very same structure. -/
theorem registry_uniqueness :
    (∀ t : IDTree, ¬ (t.leaves.map BaseErrorID.code).Nodup →
      uniqueIDTreeChecked t = none) ∧
    (∀ t : IDTree, ¬ (t.leaves.map BaseErrorID.message).Nodup →
      uniqueIDTreeChecked t = none) ∧
    (∀ t : IDTree, (t.leaves.map BaseErrorID.code).Nodup →
      (t.leaves.map BaseErrorID.message).Nodup →
      uniqueIDTreeChecked t = some t) := by
  refine ⟨?_, ?_, ?_⟩ <;> intro t
  · intro h
    simp [uniqueIDTreeChecked, h]
  · intro h
    simp [uniqueIDTreeChecked, h]
  · intro hc hm
    simp [uniqueIDTreeChecked, hc, hm, uniqueIDTree]

/-- Witness trees for C2: a duplicated code across two domains, a
duplicated message across two domains, and a collision-free tree. -/
theorem registry_uniqueness_witness :
    uniqueIDTreeChecked
      (.node [(cs "A", .leaf ⟨1, cs "a"⟩), (cs "B", .node [(cs "C", .leaf ⟨1, cs "b"⟩)])])
        = none ∧
    uniqueIDTreeChecked
      (.node [(cs "A", .leaf ⟨1, cs "a"⟩), (cs "B", .node [(cs "C", .leaf ⟨2, cs "a"⟩)])])
        = none ∧
    uniqueIDTreeChecked
      (.node [(cs "A", .leaf ⟨1, cs "a"⟩), (cs "B", .node [(cs "C", .leaf ⟨2, cs "b"⟩)])])
        = some (.node [(cs "A", .leaf ⟨1, cs "a"⟩), (cs "B", .node [(cs "C", .leaf ⟨2, cs "b"⟩)])]) :=
  ⟨registry_uniqueness.1 _ (by decide),
   registry_uniqueness.2.1 _ (by decide),
   registry_uniqueness.2.2 _ (by decide) (by decide)⟩

/-- C9: at runtime `uniqueIDTree` is the identity function — it returns
its input unchanged with no traversal or collision check, so even a tree
with duplicate codes and duplicate messages is returned successfully. -/
theorem uniqueIDTree_runtime_identity :
    (∀ t : IDTree, uniqueIDTree t = t) ∧
    (uniqueIDTree (.node [(cs "A", .leaf ⟨7, cs "dup"⟩), (cs "B", .leaf ⟨7, cs "dup"⟩)])
        = .node [(cs "A", .leaf ⟨7, cs "dup"⟩), (cs "B", .leaf ⟨7, cs "dup"⟩)] ∧
     ¬ (((IDTree.node [(cs "A", .leaf ⟨7, cs "dup"⟩), (cs "B", .leaf ⟨7, cs "dup"⟩)]).leaves.map
          BaseErrorID.code).Nodup)) :=
  ⟨fun _ => rfl, rfl, by decide⟩

/- ===================== Zod schema embedding ===================== -/

/-- JSON-like runtime values flowing through the validation rules
(JavaScript values as far as this package inspects them). `undef` is the
JavaScript `undefined`, also used for absent object fields. -/
inductive JValue where
  | num (n : Int)
  | str (s : List Char)
  | jbool (b : Bool)
  | jarr (elems : List JValue)
  | jobj (fields : List (List Char × JValue))
  | undef

/-- Shallow embedding of the zod schema values this package constructs.
`tagged` is a schema carrying the `__schemaErrors` type annotation added
by `zWithErrors`; `zoptional` stands for the wrappers whose `_def` has an
`innerType` (optional/nullable/default); `zarray` carries the `.max` /
`.nonempty` length bounds used by the response builders; `zcheck` is a
rule that applies a predicate and reports the given custom message on
failure. -/
inductive ZSchema where
  | tagged (errs : List BaseErrorID) (inner : ZSchema)
  | zunion (options : List ZSchema)
  | zobject (shape : List (List Char × ZSchema))
  | zarray (elem : ZSchema) (minLen : Nat) (maxLen : Option Nat)
  | zoptional (inner : ZSchema)
  | zlitNum (n : Int)
  | zlitStr (s : List Char)
  | zstring
  | zundef
  | zany
  | zcheck (pred : JValue → Bool) (msg : List Char)

/-- Field access on a JavaScript object: the value stored under the key,
or `undefined` when the key is absent (first binding wins). -/
def vLookup : List (List Char × JValue) → List Char → JValue
  | [], _ => .undef
  | (k, v) :: rest, key => if k = key then v else vLookup rest key

mutual

/-- Acceptance of a value by a schema, following zod parse semantics:
objects validate each shape key against the (possibly absent) field and
strip unknown keys, unions accept when any option accepts, arrays check
the length bounds and each element. -/
def validate : ZSchema → JValue → Bool
  | .tagged _ inner, v => validate inner v
  | .zunion options, v => validateAny options v
  | .zobject shape, v =>
      match v with
      | .jobj fields => validateShape shape fields
      | _ => false
  | .zarray elem minLen maxLen, v =>
      match v with
      | .jarr elems =>
          minLen ≤ elems.length &&
          (match maxLen with
           | some m => elems.length ≤ m
           | none => true) &&
          elems.all (validate elem)
      | _ => false
  | .zoptional inner, v =>
      match v with
      | .undef => true
      | _ => validate inner v
  | .zlitNum n, v =>
      match v with
      | .num m => m == n
      | _ => false
  | .zlitStr s, v =>
      match v with
      | .str t => t == s
      | _ => false
  | .zstring, v =>
      match v with
      | .str _ => true
      | _ => false
  | .zundef, v =>
      match v with
      | .undef => true
      | _ => false
  | .zany, _ => true
  | .zcheck pred _, v => pred v

/-- Acceptance by some member of a union. -/
def validateAny : List ZSchema → JValue → Bool
  | [], _ => false
  | s :: rest, v => validate s v || validateAny rest v

/-- Acceptance of an object's fields by each key of a shape. -/
def validateShape : List (List Char × ZSchema) → List (List Char × JValue) → Bool
  | [], _ => true
  | (key, s) :: rest, fields =>
      validate s (vLookup fields key) && validateShape rest fields

end

mutual

/-- The `GetSchemaErrors` type operator (src/util/zWithErrors.ts lines
69-104), embedded as a value-level computation: a schema tagged with
`__schemaErrors` contributes its annotation; a union distributes over its
options; an object distributes over its shape; an array defers to its
element; a wrapper with an `innerType` defers to the inner schema; any
other schema contributes nothing. -/
def GetSchemaErrors : ZSchema → List BaseErrorID
  | .tagged errs _ => errs
  | .zunion options => getSchemaErrorsList options
  | .zobject shape => getSchemaErrorsShape shape
  | .zarray elem _ _ => GetSchemaErrors elem
  | .zoptional inner => GetSchemaErrors inner
  | .zlitNum _ => []
  | .zlitStr _ => []
  | .zstring => []
  | .zundef => []
  | .zany => []
  | .zcheck _ _ => []

/-- Aggregated errors of each union member, concatenated. -/
def getSchemaErrorsList : List ZSchema → List BaseErrorID
  | [] => []
  | s :: rest => GetSchemaErrors s ++ getSchemaErrorsList rest

/-- Aggregated errors of each object property, concatenated. -/
def getSchemaErrorsShape : List (List Char × ZSchema) → List BaseErrorID
  | [] => []
  | (_, s) :: rest => GetSchemaErrors s ++ getSchemaErrorsShape rest

end

mutual

/-- Custom failure messages raised while validating a value, the channel
through which stringified error identifiers travel. Only the custom
messages installed by this package's rules are modelled; zod's own
default issue messages are not identifiers and are omitted. -/
def issuesOf : ZSchema → JValue → List (List Char)
  | .tagged _ inner, v => issuesOf inner v
  | .zunion options, v =>
      if validateAny options v then [] else issuesOfList options v
  | .zobject shape, v =>
      match v with
      | .jobj fields => issuesOfShape shape fields
      | _ => []
  | .zarray elem _ _, v =>
      match v with
      | .jarr elems => elems.flatMap (issuesOf elem)
      | _ => []
  | .zoptional inner, v =>
      match v with
      | .undef => []
      | _ => issuesOf inner v
  | .zcheck pred msg, v => if pred v then [] else [msg]
  | _, _ => []

/-- Custom messages of the members of a failed union. -/
def issuesOfList : List ZSchema → JValue → List (List Char)
  | [], _ => []
  | s :: rest, v => issuesOf s v ++ issuesOfList rest v

/-- Custom messages over an object's shape. -/
def issuesOfShape : List (List Char × ZSchema) → List (List Char × JValue) → List (List Char)
  | [], _ => []
  | (key, s) :: rest, fields => issuesOf s (vLookup fields key) ++ issuesOfShape rest fields

end

/- ===================== Error-aware validator factory ===================== -/

/-- The `zWithErrors` factory (src/util/zWithErrors.ts lines 54-67): it
maps `stringifyErrorID` over the entries of the identifier map, hands the
resulting string map to the schema factory, and returns the constructed
schema unchanged. -/
def zWithErrors (errorIDMap : List (List Char × BaseErrorID))
    (schemaFactory : List (List Char × List Char) → ZSchema) : ZSchema :=
  schemaFactory (errorIDMap.map fun e => (e.1, stringifyErrorID e.2))

/-- Encoded-string map handed to the factory callback. -/
def encodedIDMap (errorIDMap : List (List Char × BaseErrorID)) :
    List (List Char × List Char) :=
  errorIDMap.map fun e => (e.1, stringifyErrorID e.2)

theorem mem_getSchemaErrorsList (os : List ZSchema) (e : BaseErrorID) :
    e ∈ getSchemaErrorsList os ↔ ∃ s, s ∈ os ∧ e ∈ GetSchemaErrors s := by
  induction os with
  | nil => simp [getSchemaErrorsList]
  | cons s rest ih =>
    simp [getSchemaErrorsList, ih]

theorem mem_getSchemaErrorsShape (shape : List (List Char × ZSchema)) (e : BaseErrorID) :
    e ∈ getSchemaErrorsShape shape ↔ ∃ p, p ∈ shape ∧ e ∈ GetSchemaErrors p.2 := by
  induction shape with
  | nil =>
    simp only [getSchemaErrorsShape, List.not_mem_nil, false_iff]
    rintro ⟨p, hp, _⟩
    exact hp
  | cons p rest ih =>
    obtain ⟨k, s⟩ := p
    constructor
    · intro h
      rcases List.mem_append.mp h with h1 | h2
      · exact ⟨(k, s), List.mem_cons_self _ _, h1⟩
      · obtain ⟨q, hq, he⟩ := ih.mp h2
        exact ⟨q, List.mem_cons_of_mem _ hq, he⟩
    · rintro ⟨q, hq, he⟩
      rcases List.mem_cons.mp hq with rfl | hq2
      · exact List.mem_append.mpr (Or.inl he)
      · exact List.mem_append.mpr (Or.inr (ih.mpr ⟨q, hq2, he⟩))

/-- C3: the aggregator computes, for a tagged rule its annotation, for a
union the union of its members' aggregated sets (kept distinct, not
intersected), for an object the union over its properties, for an array
the element rule's set, for an `innerType` wrapper the inner rule's set,
and for untagged base rules the empty set; on a union of two tagged
rules nested inside an object property the result is exactly the union
of the two tagged sets, with an untagged sibling contributing nothing. -/
theorem schema_error_aggregation :
    (∀ (errs : List BaseErrorID) (inner : ZSchema),
      GetSchemaErrors (.tagged errs inner) = errs) ∧
    (∀ (options : List ZSchema) (e : BaseErrorID),
      e ∈ GetSchemaErrors (.zunion options) ↔
        ∃ s, s ∈ options ∧ e ∈ GetSchemaErrors s) ∧
    (∀ (shape : List (List Char × ZSchema)) (e : BaseErrorID),
      e ∈ GetSchemaErrors (.zobject shape) ↔
        ∃ p, p ∈ shape ∧ e ∈ GetSchemaErrors p.2) ∧
    (∀ (elem : ZSchema) (minLen : Nat) (maxLen : Option Nat),
      GetSchemaErrors (.zarray elem minLen maxLen) = GetSchemaErrors elem) ∧
    (∀ inner : ZSchema, GetSchemaErrors (.zoptional inner) = GetSchemaErrors inner) ∧
    (GetSchemaErrors .zstring = [] ∧ GetSchemaErrors .zany = [] ∧
      ∀ (pred : JValue → Bool) (msg : List Char), GetSchemaErrors (.zcheck pred msg) = []) ∧
    (∀ (idA idB : BaseErrorID),
      GetSchemaErrors (.zobject
        [(cs "p", .zunion [.tagged [idA] .zstring, .tagged [idB] .zstring]),
         (cs "q", .zstring)]) = [idA, idB]) := by
  refine ⟨fun _ _ => rfl, mem_getSchemaErrorsList, mem_getSchemaErrorsShape,
    fun _ _ _ => rfl, fun _ => rfl, ⟨rfl, rfl, fun _ _ => rfl⟩, fun _ _ => rfl⟩

/-- C4: the factory hands the builder a map with the same keys whose
values are the encoded identifier strings, returns the builder's schema
unchanged with no failure mode of its own, and a rule built with the
identifier code 999 / message Test fails validation with message exactly
`999|Test` when its underlying predicate fails. -/
theorem validator_factory :
    (∀ (errorIDMap : List (List Char × BaseErrorID))
        (schemaFactory : List (List Char × List Char) → ZSchema),
      zWithErrors errorIDMap schemaFactory = schemaFactory (encodedIDMap errorIDMap)) ∧
    (∀ errorIDMap : List (List Char × BaseErrorID),
      (encodedIDMap errorIDMap).map Prod.fst = errorIDMap.map Prod.fst) ∧
    (∀ (errorIDMap : List (List Char × BaseErrorID)) (key : List Char) (id : BaseErrorID),
      (key, id) ∈ errorIDMap → (key, stringifyErrorID id) ∈ encodedIDMap errorIDMap) ∧
    (∀ (pred : JValue → Bool) (v : JValue), pred v = false →
      issuesOf
        (zWithErrors [(cs "e", ⟨999, cs "Test"⟩)]
          (fun errs => .zcheck pred ((errs.map Prod.snd).headD [])))
        v = [cs "999|Test"]) := by
  refine ⟨fun _ _ => rfl, ?_, ?_, ?_⟩
  · intro m
    simp [encodedIDMap]
  · intro m key id hmem
    simp only [encodedIDMap, List.mem_map]
    exact ⟨(key, id), hmem, rfl⟩
  · intro pred v hp
    simp only [zWithErrors, issuesOf, hp, List.map_cons, List.map_nil]
    rfl

/-- Witness for C4 at a concretely failing predicate. -/
theorem validator_factory_witness :
    issuesOf
      (zWithErrors [(cs "e", ⟨999, cs "Test"⟩)]
        (fun errs => .zcheck (fun _ => false) ((errs.map Prod.snd).headD [])))
      .undef = [cs "999|Test"] :=
  validator_factory.2.2.2 (fun _ => false) .undef rfl

/- ===================== Response envelope builders ===================== -/

/-- The `zSuccessResponse` builder (src/Response/schemas.ts): literal
status code and a body whose `status` is the literal string success and
whose `data` is the given rule, defaulting to `z.undefined()` when no
data rule is supplied. -/
def zSuccessResponse (code : Int) (data : Option ZSchema) : ZSchema :=
  .zobject [(cs "status", .zlitNum code),
    (cs "body", .zobject
      [(cs "status", .zlitStr (cs "success")),
       (cs "data", data.getD .zundef)])]

/-- The `zFailureResponse` builder (src/Response/schemas.ts): literal
status code and a body whose `status` is the literal string failure and
whose `errors` is `z.array(z.any()).max(0)` when no error rules are
given, otherwise an array of the single rule or of the union
`[errors 0, errors 1, ...errors.slice(1)]`, made non-empty when
`errorRequired` is set. -/
def errorArraySchema (errors : List ZSchema) (errorRequired : Bool) : ZSchema :=
  match errors with
  | [] => .zarray .zany 0 (some 0)
  | [e] => .zarray e (if errorRequired then 1 else 0) none
  | e0 :: e1 :: rest =>
      .zarray (.zunion (e0 :: e1 :: e1 :: rest)) (if errorRequired then 1 else 0) none

/-- Envelope around `errorArraySchema`: literal status code and a body
carrying the literal failure status and the errors array. -/
def zFailureResponse (code : Int) (errors : List ZSchema) (errorRequired : Bool) : ZSchema :=
  .zobject [(cs "status", .zlitNum code),
    (cs "body", .zobject
      [(cs "status", .zlitStr (cs "failure")),
       (cs "errors", errorArraySchema errors errorRequired)])]

/- ================= Validation characterization lemmas ================= -/

theorem validateAny_iff (options : List ZSchema) (v : JValue) :
    validateAny options v = true ↔ ∃ s, s ∈ options ∧ validate s v = true := by
  induction options with
  | nil =>
    simp only [validateAny, Bool.false_eq_true, false_iff]
    rintro ⟨s, hs, _⟩
    exact List.not_mem_nil s hs
  | cons s rest ih =>
    simp only [validateAny, Bool.or_eq_true, ih]
    constructor
    · rintro (h | ⟨t, ht, hv⟩)
      · exact ⟨s, List.mem_cons_self _ _, h⟩
      · exact ⟨t, List.mem_cons_of_mem _ ht, hv⟩
    · rintro ⟨t, ht, hv⟩
      rcases List.mem_cons.mp ht with rfl | ht2
      · exact Or.inl hv
      · exact Or.inr ⟨t, ht2, hv⟩

theorem validateShape_iff (shape : List (List Char × ZSchema))
    (fields : List (List Char × JValue)) :
    validateShape shape fields = true ↔
      ∀ p, p ∈ shape → validate p.2 (vLookup fields p.1) = true := by
  induction shape with
  | nil =>
    simp only [validateShape, true_iff]
    intro p hp
    exact absurd hp (List.not_mem_nil p)
  | cons p rest ih =>
    obtain ⟨key, s⟩ := p
    simp only [validateShape, Bool.and_eq_true, ih]
    constructor
    · rintro ⟨h1, h2⟩ q hq
      rcases List.mem_cons.mp hq with rfl | hq2
      · exact h1
      · exact h2 q hq2
    · intro h
      exact ⟨h (key, s) (List.mem_cons_self _ _),
        fun q hq => h q (List.mem_cons_of_mem _ hq)⟩

theorem validate_zobject_eq (shape : List (List Char × ZSchema)) (v : JValue) :
    validate (.zobject shape) v =
      (match v with
       | .jobj fields => validateShape shape fields
       | _ => false) := rfl

theorem validate_zobject_iff (shape : List (List Char × ZSchema)) (v : JValue) :
    validate (.zobject shape) v = true ↔
      ∃ fields, v = .jobj fields ∧
        ∀ p, p ∈ shape → validate p.2 (vLookup fields p.1) = true := by
  rw [validate_zobject_eq]
  cases v with
  | jobj fields =>
    simp only [validateShape_iff]
    constructor
    · intro h
      exact ⟨fields, rfl, h⟩
    · rintro ⟨f, heq, h⟩
      cases heq
      exact h
  | num n =>
    simp only [Bool.false_eq_true, false_iff]
    rintro ⟨f, heq, _⟩
    exact JValue.noConfusion heq
  | str s =>
    simp only [Bool.false_eq_true, false_iff]
    rintro ⟨f, heq, _⟩
    exact JValue.noConfusion heq
  | jbool b =>
    simp only [Bool.false_eq_true, false_iff]
    rintro ⟨f, heq, _⟩
    exact JValue.noConfusion heq
  | jarr es =>
    simp only [Bool.false_eq_true, false_iff]
    rintro ⟨f, heq, _⟩
    exact JValue.noConfusion heq
  | undef =>
    simp only [Bool.false_eq_true, false_iff]
    rintro ⟨f, heq, _⟩
    exact JValue.noConfusion heq

theorem validate_zarray_eq (elem : ZSchema) (minLen : Nat) (maxLen : Option Nat) (v : JValue) :
    validate (.zarray elem minLen maxLen) v =
      (match v with
       | .jarr elems =>
          minLen ≤ elems.length &&
          (match maxLen with
           | some m => elems.length ≤ m
           | none => true) &&
          elems.all (validate elem)
       | _ => false) := rfl

theorem validate_zarray_iff (elem : ZSchema) (minLen : Nat) (maxLen : Option Nat) (v : JValue) :
    validate (.zarray elem minLen maxLen) v = true ↔
      ∃ elems, v = .jarr elems ∧ minLen ≤ elems.length ∧
        (∀ m, maxLen = some m → elems.length ≤ m) ∧
        ∀ x, x ∈ elems → validate elem x = true := by
  rw [validate_zarray_eq]
  cases v with
  | jarr elems =>
    simp only [Bool.and_eq_true, decide_eq_true_eq, List.all_eq_true]
    constructor
    · rintro ⟨⟨h1, h2⟩, h3⟩
      refine ⟨elems, rfl, h1, ?_, h3⟩
      intro m hm
      rw [hm] at h2
      simpa using h2
    · rintro ⟨es, heq, h1, h2, h3⟩
      cases heq
      refine ⟨⟨h1, ?_⟩, h3⟩
      cases maxLen with
      | none => simp
      | some m => simpa using h2 m rfl
  | num n =>
    simp only [Bool.false_eq_true, false_iff]
    rintro ⟨f, heq, _⟩
    exact JValue.noConfusion heq
  | str s =>
    simp only [Bool.false_eq_true, false_iff]
    rintro ⟨f, heq, _⟩
    exact JValue.noConfusion heq
  | jbool b =>
    simp only [Bool.false_eq_true, false_iff]
    rintro ⟨f, heq, _⟩
    exact JValue.noConfusion heq
  | jobj fs =>
    simp only [Bool.false_eq_true, false_iff]
    rintro ⟨f, heq, _⟩
    exact JValue.noConfusion heq
  | undef =>
    simp only [Bool.false_eq_true, false_iff]
    rintro ⟨f, heq, _⟩
    exact JValue.noConfusion heq

theorem validate_zlitNum_iff (n : Int) (v : JValue) :
    validate (.zlitNum n) v = true ↔ v = .num n := by
  have heq : ∀ w, validate (.zlitNum n) w =
      (match w with | .num m => m == n | _ => false) := fun _ => rfl
  rw [heq]
  cases v <;> simp

theorem validate_zlitStr_iff (s : List Char) (v : JValue) :
    validate (.zlitStr s) v = true ↔ v = .str s := by
  have heq : ∀ w, validate (.zlitStr s) w =
      (match w with | .str t => t == s | _ => false) := fun _ => rfl
  rw [heq]
  cases v <;> simp

theorem validate_zundef_iff (v : JValue) :
    validate .zundef v = true ↔ v = .undef := by
  have heq : ∀ w, validate .zundef w =
      (match w with | .undef => true | _ => false) := fun _ => rfl
  rw [heq]
  cases v <;> simp

theorem validate_zstring_iff (v : JValue) :
    validate .zstring v = true ↔ ∃ s, v = .str s := by
  have heq : ∀ w, validate .zstring w =
      (match w with | .str _ => true | _ => false) := fun _ => rfl
  rw [heq]
  cases v <;> simp

theorem validate_zunion_eq (options : List ZSchema) (v : JValue) :
    validate (.zunion options) v = validateAny options v := rfl

theorem validate_zunion_iff (options : List ZSchema) (v : JValue) :
    validate (.zunion options) v = true ↔ ∃ s, s ∈ options ∧ validate s v = true := by
  rw [validate_zunion_eq, validateAny_iff]

theorem validate_obj2_iff (k1 : List Char) (s1 : ZSchema) (k2 : List Char) (s2 : ZSchema)
    (v : JValue) :
    validate (.zobject [(k1, s1), (k2, s2)]) v = true ↔
      ∃ fields, v = .jobj fields ∧
        validate s1 (vLookup fields k1) = true ∧
        validate s2 (vLookup fields k2) = true := by
  rw [validate_zobject_iff]
  constructor
  · rintro ⟨fields, rfl, h⟩
    exact ⟨fields, rfl, h (k1, s1) (by simp), h (k2, s2) (by simp)⟩
  · rintro ⟨fields, rfl, h1, h2⟩
    refine ⟨fields, rfl, ?_⟩
    intro p hp
    rcases List.mem_cons.mp hp with rfl | hp2
    · exact h1
    · rcases List.mem_cons.mp hp2 with rfl | hp3
      · exact h2
      · exact absurd hp3 (List.not_mem_nil p)

theorem validate_errorArraySchema_iff (errors : List ZSchema) (errorRequired : Bool)
    (u : JValue) :
    validate (errorArraySchema errors errorRequired) u = true ↔
      ∃ elems, u = .jarr elems ∧
        (errors = [] → elems = []) ∧
        (errors ≠ [] →
          (∀ x, x ∈ elems → ∃ r, r ∈ errors ∧ validate r x = true) ∧
          (errorRequired = true → elems ≠ [])) := by
  match errors with
  | [] =>
    simp only [errorArraySchema, validate_zarray_iff]
    constructor
    · rintro ⟨elems, rfl, -, hmax, -⟩
      have : elems.length ≤ 0 := hmax 0 rfl
      have hnil : elems = [] := List.eq_nil_of_length_eq_zero (by omega)
      exact ⟨elems, rfl, fun _ => hnil, fun h => absurd rfl h⟩
    · rintro ⟨elems, rfl, hnil, -⟩
      have : elems = [] := hnil (by trivial)
      subst this
      exact ⟨[], rfl, by omega, fun m hm => by cases hm; simp, fun x hx => absurd hx (List.not_mem_nil x)⟩
  | [e] =>
    simp only [errorArraySchema, validate_zarray_iff]
    constructor
    · rintro ⟨elems, rfl, hmin, -, hall⟩
      refine ⟨elems, rfl, fun h => List.noConfusion h, fun _ => ⟨?_, ?_⟩⟩
      · intro x hx
        exact ⟨e, by simp, hall x hx⟩
      · intro hreq
        rw [hreq] at hmin
        simp only [if_true] at hmin
        exact List.ne_nil_of_length_pos (by omega)
    · rintro ⟨elems, rfl, -, h⟩
      obtain ⟨hall, hne⟩ := h (by simp)
      refine ⟨elems, rfl, ?_, fun m hm => Option.noConfusion hm, ?_⟩
      · cases errorRequired with
        | false => simp
        | true =>
          have := hne rfl
          have : 0 < elems.length := List.length_pos.mpr this
          simpa using this
      · intro x hx
        obtain ⟨r, hr, hv⟩ := hall x hx
        rcases List.mem_cons.mp hr with rfl | hr2
        · exact hv
        · exact absurd hr2 (List.not_mem_nil r)
  | e0 :: e1 :: rest =>
    simp only [errorArraySchema, validate_zarray_iff]
    constructor
    · rintro ⟨elems, rfl, hmin, -, hall⟩
      refine ⟨elems, rfl, fun h => List.noConfusion h, fun _ => ⟨?_, ?_⟩⟩
      · intro x hx
        have := hall x hx
        rw [validate_zunion_iff] at this
        · obtain ⟨r, hr, hv⟩ := this
          refine ⟨r, ?_, hv⟩
          rcases List.mem_cons.mp hr with rfl | hr2
          · simp
          · rcases List.mem_cons.mp hr2 with rfl | hr3
            · simp
            · rcases List.mem_cons.mp hr3 with rfl | hr4
              · simp
              · simp [hr4]
      · intro hreq
        rw [hreq] at hmin
        simp only [if_true] at hmin
        exact List.ne_nil_of_length_pos (by omega)
    · rintro ⟨elems, rfl, -, h⟩
      obtain ⟨hall, hne⟩ := h (by simp)
      refine ⟨elems, rfl, ?_, fun m hm => Option.noConfusion hm, ?_⟩
      · cases errorRequired with
        | false => simp
        | true =>
          have := hne rfl
          have : 0 < elems.length := List.length_pos.mpr this
          simpa using this
      · intro x hx
        obtain ⟨r, hr, hv⟩ := hall x hx
        rw [validate_zunion_iff]
        refine ⟨r, ?_, hv⟩
        rcases List.mem_cons.mp hr with rfl | hr2
        · simp
        · rcases List.mem_cons.mp hr2 with rfl | hr3
          · simp
          · simp [hr3]

/-- C6: `zFailureResponse` accepts exactly values whose `status` field is
the literal status code and whose `body` carries the literal failure
status and an `errors` array, where: with no error rules the array must
be empty; with rules declared every element must match one of the given
rules (the union when several are given); and the array must additionally
be non-empty exactly when `errorRequired` is set (an empty array being
accepted otherwise even with rules declared). -/
theorem failure_envelope (code : Int) (errors : List ZSchema) (errorRequired : Bool)
    (v : JValue) :
    validate (zFailureResponse code errors errorRequired) v = true ↔
      ∃ fields bodyFields elems,
        v = .jobj fields ∧
        vLookup fields (cs "status") = .num code ∧
        vLookup fields (cs "body") = .jobj bodyFields ∧
        vLookup bodyFields (cs "status") = .str (cs "failure") ∧
        vLookup bodyFields (cs "errors") = .jarr elems ∧
        (errors = [] → elems = []) ∧
        (errors ≠ [] →
          (∀ x, x ∈ elems → ∃ r, r ∈ errors ∧ validate r x = true) ∧
          (errorRequired = true → elems ≠ [])) := by
  unfold zFailureResponse
  rw [validate_obj2_iff]
  constructor
  · rintro ⟨fields, rfl, h1, h2⟩
    rw [validate_zlitNum_iff] at h1
    rw [validate_obj2_iff] at h2
    obtain ⟨bodyFields, hbf, h3, h4⟩ := h2
    rw [validate_zlitStr_iff] at h3
    rw [validate_errorArraySchema_iff] at h4
    obtain ⟨elems, helems, h5, h6⟩ := h4
    exact ⟨fields, bodyFields, elems, rfl, h1, hbf, h3, helems, h5, h6⟩
  · rintro ⟨fields, bodyFields, elems, rfl, h1, hbf, h3, helems, h5, h6⟩
    refine ⟨fields, rfl, ?_, ?_⟩
    · rw [validate_zlitNum_iff]
      exact h1
    · rw [validate_obj2_iff]
      refine ⟨bodyFields, hbf, ?_, ?_⟩
      · rw [validate_zlitStr_iff]
        exact h3
      · rw [validate_errorArraySchema_iff]
        exact ⟨elems, helems, h5, h6⟩

/-- C7: `zSuccessResponse` accepts exactly values whose `status` field is
the literal status code and whose `body` carries the literal success
status and a `data` field matching the data rule (`z.undefined()` when no
rule is given, so a present `data` field is rejected); concretely, the
bare builder accepts the plain success envelope and rejects it once an
extra `data` field appears, and with a string data rule it rejects a
missing or non-string `data` and accepts a string one. -/
theorem success_envelope :
    (∀ (code : Int) (data : Option ZSchema) (v : JValue),
      validate (zSuccessResponse code data) v = true ↔
        ∃ fields bodyFields,
          v = .jobj fields ∧
          vLookup fields (cs "status") = .num code ∧
          vLookup fields (cs "body") = .jobj bodyFields ∧
          vLookup bodyFields (cs "status") = .str (cs "success") ∧
          validate (data.getD .zundef) (vLookup bodyFields (cs "data")) = true) ∧
    validate (zSuccessResponse 200 none)
      (.jobj [(cs "status", .num 200),
        (cs "body", .jobj [(cs "status", .str (cs "success"))])]) = true ∧
    validate (zSuccessResponse 200 none)
      (.jobj [(cs "status", .num 200),
        (cs "body", .jobj [(cs "status", .str (cs "success")),
          (cs "data", .str (cs "darn"))])]) = false ∧
    validate (zSuccessResponse 200 (some .zstring))
      (.jobj [(cs "status", .num 200),
        (cs "body", .jobj [(cs "status", .str (cs "success"))])]) = false ∧
    validate (zSuccessResponse 200 (some .zstring))
      (.jobj [(cs "status", .num 200),
        (cs "body", .jobj [(cs "status", .str (cs "success")),
          (cs "data", .num 1)])]) = false ∧
    validate (zSuccessResponse 200 (some .zstring))
      (.jobj [(cs "status", .num 200),
        (cs "body", .jobj [(cs "status", .str (cs "success")),
          (cs "data", .str (cs "wow"))])]) = true := by
  refine ⟨?_, by decide, by decide, by decide, by decide, by decide⟩
  intro code data v
  unfold zSuccessResponse
  rw [validate_obj2_iff]
  constructor
  · rintro ⟨fields, rfl, h1, h2⟩
    rw [validate_zlitNum_iff] at h1
    rw [validate_obj2_iff] at h2
    obtain ⟨bodyFields, hbf, h3, h4⟩ := h2
    rw [validate_zlitStr_iff] at h3
    exact ⟨fields, bodyFields, rfl, h1, hbf, h3, h4⟩
  · rintro ⟨fields, bodyFields, rfl, h1, hbf, h3, h4⟩
    refine ⟨fields, rfl, ?_, ?_⟩
    · rw [validate_zlitNum_iff]
      exact h1
    · rw [validate_obj2_iff]
      refine ⟨bodyFields, hbf, ?_, h4⟩
      rw [validate_zlitStr_iff]
      exact h3

/- ===================== Delimited query-array parser ===================== -/

/-- Error identifiers registered for the query-array helper
(src/util/schema/queryArray/ErrorIDs.ts). -/
def qaInvalidFormatID : BaseErrorID :=
  ⟨900, cs "Invalid request query array format"⟩

/-- The registered Duplicate identifier (code 901). -/
def qaDuplicateID : BaseErrorID :=
  ⟨901, cs "Query array duplicates not allowed for this request parameter"⟩

/-- The registered InvalidValue identifier (code 902). -/
def qaInvalidValueID : BaseErrorID :=
  ⟨902, cs "Request query array value is not valid"⟩

/-- JavaScript character class `[^\W_]` (no Unicode flag): an ASCII word
character other than underscore, i.e. an ASCII letter or digit. -/
def qaWord (c : Char) : Bool := c.isAlpha || c.isDigit

/-- Tail of the matcher for `([^\W_]+,?)+` after at least one word
character of the current element has been consumed: word characters
continue the element, a comma closes it (and must be followed by the end
of the fragment or a new element), anything else fails. -/
def qaBodySimpleGo : List Char → Bool
  | [] => true
  | c :: rest =>
      if c = ',' then
        match rest with
        | [] => true
        | d :: rest2 => qaWord d && qaBodySimpleGo rest2
      else qaWord c && qaBodySimpleGo rest

/-- Full match of `([^\W_]+,?)+` (the element list of the plain
query-array regex) against a character list. -/
def qaBodySimple (t : List Char) : Bool :=
  match t with
  | [] => false
  | c :: rest => qaWord c && qaBodySimpleGo rest

mutual

/-- Matcher state for `([^\W_]+(:[^\W_]+)?,?)+` inside the pre-colon word
of an element (at least one word character consumed). A colon must be
followed by a word character; any word characters after that first
post-colon character can equivalently start a fresh element, which is how
the backtracking choice of the group `(:[^\W_]+)?` is resolved. -/
def qaBodySubGo1 : List Char → Bool
  | [] => true
  | c :: rest =>
      if c = ',' then
        match rest with
        | [] => true
        | d :: rest2 => qaWord d && qaBodySubGo1 rest2
      else if c = ':' then
        match rest with
        | [] => false
        | d :: rest2 => qaWord d && qaBodySubGo2 rest2
      else qaWord c && qaBodySubGo1 rest

/-- Matcher state directly after the first post-colon word character:
the element may end, close with a comma, or hand over to word characters
(which open the next element); a second colon cannot follow here. -/
def qaBodySubGo2 : List Char → Bool
  | [] => true
  | c :: rest =>
      if c = ',' then
        match rest with
        | [] => true
        | d :: rest2 => qaWord d && qaBodySubGo1 rest2
      else qaWord c && qaBodySubGo1 rest

end

/-- Full match of `([^\W_]+(:[^\W_]+)?,?)+` (the element list of the
sub-value query-array regex) against a character list. -/
def qaBodySub (t : List Char) : Bool :=
  match t with
  | [] => false
  | c :: rest => qaWord c && qaBodySubGo1 rest

/-- The query-array format regexes of queryArray.ts lines 69-71:
`^([^\W_]+(:[^\W_]+)?,?)+[^,]$` with sub-values and `^([^\W_]+,?)+[^,]$`
without. The final `[^,]` consumes exactly the last character, which may
be any character other than a comma; the group part must match everything
before it. -/
def qaFormat (withSubValues : Bool) (s : List Char) : Bool :=
  match s.getLast? with
  | none => false
  | some c =>
      !(c == ',') &&
      (if withSubValues then qaBodySub s.dropLast else qaBodySimple s.dropLast)

/-- Elements produced by the query-array transform: plain string keys
without sub-value support, key/optional-sub-value objects with it. -/
inductive QAElem where
  | plain (key : List Char)
  | pair (key : List Char) (value : Option (List Char))
deriving DecidableEq, Repr

/-- Key and sub-value of one comma-separated element, mirroring
`const [key, value] = withSubValues ? element.split(':') : [element]`
(the JavaScript destructuring takes the first two split segments and
leaves `value` undefined when there is no colon). -/
def qaKeyVal (withSubValues : Bool) (element : List Char) :
    List Char × Option (List Char) :=
  if withSubValues then
    match element.splitOn ':' with
    | [] => (element, none)
    | [k] => (k, none)
    | k :: v :: _ => (k, some v)
  else (element, none)

/-- Key of one comma-separated element. -/
def qaKey (withSubValues : Bool) (element : List Char) : List Char :=
  (qaKeyVal withSubValues element).1

/-- Sub-value of one comma-separated element. -/
def qaVal (withSubValues : Bool) (element : List Char) : Option (List Char) :=
  (qaKeyVal withSubValues element).2

/-- Accumulator of the transform callback: the `elementSet` uniqueness
set, the collected output `elements`, and the custom issue messages
added through `ctx.addIssue`. -/
structure QAState where
  elementSet : List (List Char)
  elements : List QAElem
  issues : List (List Char)
deriving Repr

/-- Message bound to the `invalidFormat` key of the factory map:
the encoded InvalidFormat identifier. -/
def qaInvalidFormatMsg : List Char := stringifyErrorID qaInvalidFormatID

/-- Message bound to the `invalidValue` key of the factory map:
the encoded InvalidValue identifier. -/
def qaInvalidValueMsg : List Char := stringifyErrorID qaInvalidValueID

/-- Message bound to the `duplicate` key of the factory map. The source
(queryArray.ts line 77) binds `duplicate` to
`errorIDs.Request.QueryArray.InvalidValue`, not to the registered
Duplicate identifier, so this is again the encoded InvalidValue
identifier. -/
def qaDuplicateMsg : List Char := stringifyErrorID qaInvalidValueID

/-- One iteration of the transform's `forEach` (queryArray.ts lines
86-121): report a duplicate key when uniqueness is on, then the
allow-list check on the key, then the allow-list check on the sub-value,
and otherwise push the element and record its key. -/
def qaStep (unique withSubValues : Bool) (allowed : List (List Char))
    (allowedSubValues : List (Option (List Char)))
    (st : QAState) (element : List Char) : QAState :=
  if unique = true ∧ qaKey withSubValues element ∈ st.elementSet then
    ⟨st.elementSet, st.elements, st.issues ++ [qaDuplicateMsg]⟩
  else if allowed ≠ [] ∧ qaKey withSubValues element ∉ allowed then
    ⟨st.elementSet, st.elements, st.issues ++ [qaInvalidValueMsg]⟩
  else if withSubValues = true ∧ allowedSubValues ≠ [] ∧
      qaVal withSubValues element ∉ allowedSubValues then
    ⟨st.elementSet, st.elements, st.issues ++ [qaInvalidValueMsg]⟩
  else
    ⟨st.elementSet ++ [qaKey withSubValues element],
     st.elements ++ [if withSubValues then
       .pair (qaKey withSubValues element) (qaVal withSubValues element)
       else .plain (qaKey withSubValues element)],
     st.issues⟩

/-- The transform's loop over the comma-split elements. -/
def qaRunFrom (unique withSubValues : Bool) (allowed : List (List Char))
    (allowedSubValues : List (Option (List Char))) :
    QAState → List (List Char) → QAState
  | st, [] => st
  | st, e :: rest =>
      qaRunFrom unique withSubValues allowed allowedSubValues
        (qaStep unique withSubValues allowed allowedSubValues st e) rest

/-- The `queryArray` schema builder (queryArray.ts lines 57-125), as the
parse function of the schema it returns: the string must pass the format
regex (failing with the encoded InvalidFormat message), then the
transform splits on commas and runs the per-element checks, failing with
the collected issue messages when any were added. -/
def queryArray (allowed : List (List Char)) (unique withSubValues : Bool)
    (allowedSubValues : List (Option (List Char))) (input : List Char) :
    Except (List (List Char)) (List QAElem) :=
  if qaFormat withSubValues input = false then .error [qaInvalidFormatMsg]
  else if (qaRunFrom unique withSubValues allowed allowedSubValues
      ⟨[], [], []⟩ (input.splitOn ',')).issues = [] then
    .ok (qaRunFrom unique withSubValues allowed allowedSubValues
      ⟨[], [], []⟩ (input.splitOn ',')).elements
  else .error (qaRunFrom unique withSubValues allowed allowedSubValues
      ⟨[], [], []⟩ (input.splitOn ',')).issues

instance {ε α : Type} [DecidableEq ε] [DecidableEq α] : DecidableEq (Except ε α) := fun x y =>
  match x, y with
  | .ok a, .ok b =>
      if h : a = b then isTrue (by rw [h]) else
        isFalse (by intro he; cases he; exact h rfl)
  | .error a, .error b =>
      if h : a = b then isTrue (by rw [h]) else
        isFalse (by intro he; cases he; exact h rfl)
  | .ok _, .error _ => isFalse (by intro h; cases h)
  | .error _, .ok _ => isFalse (by intro h; cases h)

/-- Character class admitted anywhere by the plain query-array regex:
word characters and the comma separator. -/
def qaSimpleChar (c : Char) : Bool := qaWord c || c == ','

/-- Character class admitted anywhere by the sub-value query-array regex:
word characters, the comma separator and the sub-value colon. -/
def qaSubChar (c : Char) : Bool := qaWord c || c == ',' || c == ':'

/-- Two commas in adjacent positions somewhere in the string. -/
def hasAdjacentCommas : List Char → Bool
  | [] => false
  | [_] => false
  | c :: d :: rest => (c == ',' && d == ',') || hasAdjacentCommas (d :: rest)

theorem hasAdjacentCommas_cons (d : Char) (l : List Char) (hd : (d == ',') = false) :
    hasAdjacentCommas (d :: l) = hasAdjacentCommas l := by
  cases l with
  | nil => simp [hasAdjacentCommas]
  | cons e l2 => simp [hasAdjacentCommas, hd]

theorem qaWord_ne_comma (c : Char) (h : qaWord c = true) : (c == ',') = false := by
  cases hbe : (c == ',') with
  | false => rfl
  | true =>
    have hc : c = ',' := beq_iff_eq.mp hbe
    subst hc
    exact absurd h (by decide)

theorem qaBodySimpleGo_sound (t : List Char) : qaBodySimpleGo t = true →
    t.all qaSimpleChar = true ∧ hasAdjacentCommas t = false := by
  induction t using qaBodySimpleGo.induct with
  | case1 => intro _; exact ⟨rfl, rfl⟩
  | case2 => intro _; exact ⟨by decide, rfl⟩
  | case3 d rest2 ih =>
    intro h
    unfold qaBodySimpleGo at h
    rw [if_pos rfl] at h
    simp only [Bool.and_eq_true] at h
    obtain ⟨hd, hgo⟩ := h
    obtain ⟨hall, hadj⟩ := ih hgo
    have hdc := qaWord_ne_comma d hd
    refine ⟨?_, ?_⟩
    · simp only [List.all_cons, Bool.and_eq_true, qaSimpleChar, Bool.or_eq_true]
      exact ⟨Or.inr (by simp), Or.inl hd, hall⟩
    · rw [show hasAdjacentCommas (',' :: d :: rest2)
          = ((',' == ',' && (d == ',')) || hasAdjacentCommas (d :: rest2)) from rfl]
      rw [hasAdjacentCommas_cons d rest2 hdc, hadj, hdc]
      simp
  | case4 d rest2 hne ih =>
    intro h
    unfold qaBodySimpleGo at h
    rw [if_neg hne] at h
    simp only [Bool.and_eq_true] at h
    obtain ⟨hd, hgo⟩ := h
    obtain ⟨hall, hadj⟩ := ih hgo
    have hdc := qaWord_ne_comma d hd
    refine ⟨?_, ?_⟩
    · simp only [List.all_cons, Bool.and_eq_true, qaSimpleChar, Bool.or_eq_true]
      exact ⟨Or.inl hd, hall⟩
    · rw [hasAdjacentCommas_cons d rest2 hdc]
      exact hadj

theorem qaBodySubGo_sound_aux (n : Nat) : ∀ (t : List Char), t.length ≤ n →
    (qaBodySubGo1 t = true → t.all qaSubChar = true ∧ hasAdjacentCommas t = false) ∧
    (qaBodySubGo2 t = true → t.all qaSubChar = true ∧ hasAdjacentCommas t = false) := by
  induction n with
  | zero =>
    intro t ht
    have : t = [] := List.eq_nil_of_length_eq_zero (by omega)
    subst this
    exact ⟨fun _ => ⟨rfl, rfl⟩, fun _ => ⟨rfl, rfl⟩⟩
  | succ n ih =>
    intro t ht
    cases t with
    | nil => exact ⟨fun _ => ⟨rfl, rfl⟩, fun _ => ⟨rfl, rfl⟩⟩
    | cons c rest =>
      by_cases hc : c = ','
      · subst hc
        cases rest with
        | nil => exact ⟨fun _ => ⟨by decide, rfl⟩, fun _ => ⟨by decide, rfl⟩⟩
        | cons d rest2 =>
          have hlen : rest2.length ≤ n := by
            simp only [List.length_cons] at ht
            omega
          have ihr := ih rest2 hlen
          have build : qaWord d = true →
              rest2.all qaSubChar = true → hasAdjacentCommas rest2 = false →
              (',' :: d :: rest2).all qaSubChar = true ∧
                hasAdjacentCommas (',' :: d :: rest2) = false := by
            intro hd hall hadj
            have hdc := qaWord_ne_comma d hd
            refine ⟨?_, ?_⟩
            · simp only [List.all_cons, Bool.and_eq_true, qaSubChar, Bool.or_eq_true]
              exact ⟨Or.inl (Or.inr (by simp)), Or.inl (Or.inl hd), hall⟩
            · rw [show hasAdjacentCommas (',' :: d :: rest2)
                  = ((',' == ',' && (d == ',')) || hasAdjacentCommas (d :: rest2)) from rfl]
              rw [hasAdjacentCommas_cons d rest2 hdc, hadj, hdc]
              simp
          constructor
          · intro h
            unfold qaBodySubGo1 at h
            rw [if_pos rfl] at h
            simp only [Bool.and_eq_true] at h
            obtain ⟨hall, hadj⟩ := ihr.1 h.2
            exact build h.1 hall hadj
          · intro h
            unfold qaBodySubGo2 at h
            rw [if_pos rfl] at h
            simp only [Bool.and_eq_true] at h
            obtain ⟨hall, hadj⟩ := ihr.1 h.2
            exact build h.1 hall hadj
      · by_cases hcol : c = ':'
        · subst hcol
          constructor
          · intro h
            unfold qaBodySubGo1 at h
            rw [if_neg (by decide), if_pos rfl] at h
            cases rest with
            | nil => exact absurd h (by decide)
            | cons d rest2 =>
              have hlen : rest2.length ≤ n := by
                simp only [List.length_cons] at ht
                omega
              have ihr := ih rest2 hlen
              simp only [Bool.and_eq_true] at h
              obtain ⟨hd, hgo⟩ := h
              obtain ⟨hall, hadj⟩ := ihr.2 hgo
              have hdc := qaWord_ne_comma d hd
              refine ⟨?_, ?_⟩
              · simp only [List.all_cons, Bool.and_eq_true, qaSubChar, Bool.or_eq_true]
                exact ⟨Or.inr (by simp), Or.inl (Or.inl hd), hall⟩
              · rw [show hasAdjacentCommas (':' :: d :: rest2)
                    = ((':' == ',' && (d == ',')) || hasAdjacentCommas (d :: rest2)) from rfl]
                rw [hasAdjacentCommas_cons d rest2 hdc, hadj, hdc]
                simp
          · intro h
            unfold qaBodySubGo2 at h
            rw [if_neg (by decide)] at h
            simp only [Bool.and_eq_true] at h
            exact absurd h.1 (by decide)
        · have hrest : rest.length ≤ n := by
            simp only [List.length_cons] at ht
            omega
          have ihr := ih rest hrest
          have build : qaWord c = true →
              rest.all qaSubChar = true → hasAdjacentCommas rest = false →
              (c :: rest).all qaSubChar = true ∧ hasAdjacentCommas (c :: rest) = false := by
            intro hcw hall hadj
            have hdc := qaWord_ne_comma c hcw
            refine ⟨?_, ?_⟩
            · simp only [List.all_cons, Bool.and_eq_true, qaSubChar, Bool.or_eq_true]
              exact ⟨Or.inl (Or.inl hcw), hall⟩
            · rw [hasAdjacentCommas_cons c rest hdc]
              exact hadj
          constructor
          · intro h
            unfold qaBodySubGo1 at h
            rw [if_neg hc, if_neg hcol] at h
            simp only [Bool.and_eq_true] at h
            obtain ⟨hall, hadj⟩ := ihr.1 h.2
            exact build h.1 hall hadj
          · intro h
            unfold qaBodySubGo2 at h
            rw [if_neg hc] at h
            simp only [Bool.and_eq_true] at h
            obtain ⟨hall, hadj⟩ := ihr.1 h.2
            exact build h.1 hall hadj

theorem qaRunFrom_spec (unique withSubValues : Bool) (allowed : List (List Char))
    (allowedSubValues : List (Option (List Char))) :
    ∀ (L : List (List Char)) (st : QAState),
      ((qaRunFrom unique withSubValues allowed allowedSubValues st L).issues = [] ↔
        (st.issues = [] ∧
         (unique = true → ((L.map (qaKey withSubValues)).Nodup ∧
            ∀ k, k ∈ L.map (qaKey withSubValues) → k ∉ st.elementSet)) ∧
         (allowed ≠ [] → ∀ k, k ∈ L.map (qaKey withSubValues) → k ∈ allowed) ∧
         (withSubValues = true → allowedSubValues ≠ [] →
            ∀ v2, v2 ∈ L.map (qaVal withSubValues) → v2 ∈ allowedSubValues))) ∧
      ((qaRunFrom unique withSubValues allowed allowedSubValues st L).issues = [] →
        ∀ x, x ∈ (qaRunFrom unique withSubValues allowed allowedSubValues st L).elementSet ↔
          x ∈ st.elementSet ∨ x ∈ L.map (qaKey withSubValues)) := by
  intro L
  induction L with
  | nil =>
    intro st
    constructor
    · simp [qaRunFrom]
    · intro _ x
      simp [qaRunFrom]
  | cons e rest ih =>
    intro st
    have hrun : qaRunFrom unique withSubValues allowed allowedSubValues st (e :: rest)
        = qaRunFrom unique withSubValues allowed allowedSubValues
            (qaStep unique withSubValues allowed allowedSubValues st e) rest := rfl
    have hkmem : qaKey withSubValues e ∈ (e :: rest).map (qaKey withSubValues) := by
      rw [List.map_cons]
      exact List.mem_cons_self _ _
    have hvmem : qaVal withSubValues e ∈ (e :: rest).map (qaVal withSubValues) := by
      rw [List.map_cons]
      exact List.mem_cons_self _ _
    by_cases h1 : unique = true ∧ qaKey withSubValues e ∈ st.elementSet
    · have hstep : qaStep unique withSubValues allowed allowedSubValues st e
          = ⟨st.elementSet, st.elements, st.issues ++ [qaDuplicateMsg]⟩ := by
        unfold qaStep
        rw [if_pos h1]
      have hne : (qaRunFrom unique withSubValues allowed allowedSubValues
          ⟨st.elementSet, st.elements, st.issues ++ [qaDuplicateMsg]⟩ rest).issues ≠ [] := by
        intro hcl
        have := ((ih _).1).mp hcl
        exact List.append_ne_nil_of_right_ne_nil _ (by simp) this.1
      refine ⟨⟨fun hcl => absurd (by rw [hrun, hstep] at hcl; exact hcl) hne, ?_⟩,
        fun hcl => absurd (by rw [hrun, hstep] at hcl; exact hcl) hne⟩
      rintro ⟨-, hu, -, -⟩
      exfalso
      exact (hu h1.1).2 (qaKey withSubValues e) hkmem h1.2
    · by_cases h2 : allowed ≠ [] ∧ qaKey withSubValues e ∉ allowed
      · have hstep : qaStep unique withSubValues allowed allowedSubValues st e
            = ⟨st.elementSet, st.elements, st.issues ++ [qaInvalidValueMsg]⟩ := by
          unfold qaStep
          rw [if_neg h1, if_pos h2]
        have hne : (qaRunFrom unique withSubValues allowed allowedSubValues
            ⟨st.elementSet, st.elements, st.issues ++ [qaInvalidValueMsg]⟩ rest).issues ≠ [] := by
          intro hcl
          have := ((ih _).1).mp hcl
          exact List.append_ne_nil_of_right_ne_nil _ (by simp) this.1
        refine ⟨⟨fun hcl => absurd (by rw [hrun, hstep] at hcl; exact hcl) hne, ?_⟩,
          fun hcl => absurd (by rw [hrun, hstep] at hcl; exact hcl) hne⟩
        rintro ⟨-, -, hal, -⟩
        exfalso
        exact h2.2 (hal h2.1 (qaKey withSubValues e) hkmem)
      · by_cases h3 : withSubValues = true ∧ allowedSubValues ≠ [] ∧
            qaVal withSubValues e ∉ allowedSubValues
        · have hstep : qaStep unique withSubValues allowed allowedSubValues st e
              = ⟨st.elementSet, st.elements, st.issues ++ [qaInvalidValueMsg]⟩ := by
            unfold qaStep
            rw [if_neg h1, if_neg h2, if_pos h3]
          have hne : (qaRunFrom unique withSubValues allowed allowedSubValues
              ⟨st.elementSet, st.elements, st.issues ++ [qaInvalidValueMsg]⟩ rest).issues ≠ [] := by
            intro hcl
            have := ((ih _).1).mp hcl
            exact List.append_ne_nil_of_right_ne_nil _ (by simp) this.1
          refine ⟨⟨fun hcl => absurd (by rw [hrun, hstep] at hcl; exact hcl) hne, ?_⟩,
            fun hcl => absurd (by rw [hrun, hstep] at hcl; exact hcl) hne⟩
          rintro ⟨-, -, -, hsv⟩
          exfalso
          exact h3.2.2 (hsv h3.1 h3.2.1 (qaVal withSubValues e) hvmem)
        · -- element accepted and recorded
          have hkallowed : allowed ≠ [] → qaKey withSubValues e ∈ allowed := by
            intro hane
            by_contra hno
            exact h2 ⟨hane, hno⟩
          have hvallowed : withSubValues = true → allowedSubValues ≠ [] →
              qaVal withSubValues e ∈ allowedSubValues := by
            intro hws hsne
            by_contra hno
            exact h3 ⟨hws, hsne, hno⟩
          have hknset : unique = true → qaKey withSubValues e ∉ st.elementSet := by
            intro huq hmem
            exact h1 ⟨huq, hmem⟩
          have hstep : qaStep unique withSubValues allowed allowedSubValues st e
              = ⟨st.elementSet ++ [qaKey withSubValues e],
                 st.elements ++ [if withSubValues then
                   .pair (qaKey withSubValues e) (qaVal withSubValues e)
                   else .plain (qaKey withSubValues e)],
                 st.issues⟩ := by
            unfold qaStep
            rw [if_neg h1, if_neg h2, if_neg h3]
          have ihs := ih ⟨st.elementSet ++ [qaKey withSubValues e],
                 st.elements ++ [if withSubValues then
                   .pair (qaKey withSubValues e) (qaVal withSubValues e)
                   else .plain (qaKey withSubValues e)],
                 st.issues⟩
          constructor
          · rw [hrun, hstep, ihs.1]
            constructor
            · rintro ⟨hiss, hu, hal, hsv⟩
              refine ⟨hiss, ?_, ?_, ?_⟩
              · intro huq
                obtain ⟨hnd, hnin⟩ := hu huq
                refine ⟨?_, ?_⟩
                · rw [List.map_cons, List.nodup_cons]
                  refine ⟨?_, hnd⟩
                  intro hkin
                  exact (hnin _ hkin) (List.mem_append_right _ (by simp))
                · intro k hk
                  rw [List.map_cons] at hk
                  rcases List.mem_cons.mp hk with rfl | hk2
                  · exact hknset huq
                  · intro hks
                    exact (hnin k hk2) (List.mem_append_left _ hks)
              · intro hane k hk
                rw [List.map_cons] at hk
                rcases List.mem_cons.mp hk with rfl | hk2
                · exact hkallowed hane
                · exact hal hane k hk2
              · intro hws hsne v2 hv
                rw [List.map_cons] at hv
                rcases List.mem_cons.mp hv with rfl | hv2
                · exact hvallowed hws hsne
                · exact hsv hws hsne v2 hv2
            · rintro ⟨hiss, hu, hal, hsv⟩
              refine ⟨hiss, ?_, ?_, ?_⟩
              · intro huq
                obtain ⟨hnd, hnin⟩ := hu huq
                rw [List.map_cons, List.nodup_cons] at hnd
                refine ⟨hnd.2, ?_⟩
                intro k hk hkin
                rcases List.mem_append.mp hkin with hks | hksing
                · exact (hnin k (by rw [List.map_cons]; exact List.mem_cons_of_mem _ hk)) hks
                · rw [List.mem_singleton] at hksing
                  subst hksing
                  exact hnd.1 hk
              · intro hane k hk
                exact hal hane k (by rw [List.map_cons]; exact List.mem_cons_of_mem _ hk)
              · intro hws hsne v2 hv
                exact hsv hws hsne v2 (by rw [List.map_cons]; exact List.mem_cons_of_mem _ hv)
          · rw [hrun, hstep]
            intro hcl x
            rw [ihs.2 hcl x]
            constructor
            · rintro (hx | hx)
              · rcases List.mem_append.mp hx with hx2 | hx2
                · exact Or.inl hx2
                · rw [List.mem_singleton] at hx2
                  subst hx2
                  exact Or.inr hkmem
              · refine Or.inr ?_
                rw [List.map_cons]
                exact List.mem_cons_of_mem _ hx
            · rintro (hx | hx)
              · exact Or.inl (List.mem_append_left _ hx)
              · rw [List.map_cons] at hx
                rcases List.mem_cons.mp hx with rfl | hx2
                · exact Or.inl (List.mem_append_right _ (by simp))
                · exact Or.inr hx2

theorem hasAdjacentCommas_append_last (l : List Char) (c : Char) (hc : (c == ',') = false) :
    hasAdjacentCommas (l ++ [c]) = hasAdjacentCommas l := by
  induction l with
  | nil => simp [hasAdjacentCommas]
  | cons x rest ih =>
    cases rest with
    | nil => simp [hasAdjacentCommas, hc]
    | cons y rest2 =>
      have ih2 : hasAdjacentCommas (y :: (rest2 ++ [c])) = hasAdjacentCommas (y :: rest2) := by
        rw [show y :: (rest2 ++ [c]) = (y :: rest2) ++ [c] from rfl]
        exact ih
      rw [show (x :: y :: rest2) ++ [c] = x :: y :: (rest2 ++ [c]) from rfl]
      rw [show hasAdjacentCommas (x :: y :: (rest2 ++ [c]))
          = ((x == ',' && (y == ',')) || hasAdjacentCommas (y :: (rest2 ++ [c]))) from rfl]
      rw [show hasAdjacentCommas (x :: y :: rest2)
          = ((x == ',' && (y == ',')) || hasAdjacentCommas (y :: rest2)) from rfl]
      rw [ih2]

theorem getLast?_decomp (s : List Char) (c : Char) (h : s.getLast? = some c) :
    s.dropLast ++ [c] = s :=
  List.dropLast_append_getLast? c (by rw [h]; rfl)

theorem qaBody_sound (withSubValues : Bool) (t : List Char)
    (h : (if withSubValues then qaBodySub t else qaBodySimple t) = true) :
    t ≠ [] ∧
    (∀ c, c ∈ t → (if withSubValues then qaSubChar c else qaSimpleChar c) = true) ∧
    hasAdjacentCommas t = false ∧
    (∀ c, t.head? = some c → qaWord c = true) := by
  cases hw : withSubValues with
  | true =>
    rw [hw, if_pos rfl] at h
    unfold qaBodySub at h
    cases t with
    | nil => exact absurd h (by simp)
    | cons c0 r =>
      simp only [Bool.and_eq_true] at h
      obtain ⟨hc0, hgo⟩ := h
      obtain ⟨hall, hadj⟩ := (qaBodySubGo_sound_aux r.length r (le_refl _)).1 hgo
      refine ⟨by simp, ?_, ?_, ?_⟩
      · intro d hd
        rw [if_pos rfl]
        rcases List.mem_cons.mp hd with rfl | hd2
        · simp only [qaSubChar, Bool.or_eq_true]
          exact Or.inl (Or.inl hc0)
        · exact (List.all_eq_true.mp hall) d hd2
      · rw [hasAdjacentCommas_cons c0 r (qaWord_ne_comma c0 hc0)]
        exact hadj
      · intro d hd
        simp only [List.head?_cons, Option.some.injEq] at hd
        subst hd
        exact hc0
  | false =>
    rw [hw, if_neg (by simp)] at h
    unfold qaBodySimple at h
    cases t with
    | nil => exact absurd h (by simp)
    | cons c0 r =>
      simp only [Bool.and_eq_true] at h
      obtain ⟨hc0, hgo⟩ := h
      obtain ⟨hall, hadj⟩ := qaBodySimpleGo_sound r hgo
      refine ⟨by simp, ?_, ?_, ?_⟩
      · intro d hd
        rw [if_neg (by simp)]
        rcases List.mem_cons.mp hd with rfl | hd2
        · simp only [qaSimpleChar, Bool.or_eq_true]
          exact Or.inl hc0
        · exact (List.all_eq_true.mp hall) d hd2
      · rw [hasAdjacentCommas_cons c0 r (qaWord_ne_comma c0 hc0)]
        exact hadj
      · intro d hd
        simp only [List.head?_cons, Option.some.injEq] at hd
        subst hd
        exact hc0

theorem qaFormat_sound (withSubValues : Bool) (s : List Char)
    (h : qaFormat withSubValues s = true) :
    s ≠ [] ∧ s.getLast? ≠ some ',' ∧
    (∀ c, c ∈ s.dropLast →
      (if withSubValues then qaSubChar c else qaSimpleChar c) = true) ∧
    hasAdjacentCommas s = false ∧
    (∀ c, s.head? = some c → qaWord c = true) := by
  unfold qaFormat at h
  cases hl : s.getLast? with
  | none => rw [hl] at h; exact absurd h (by simp)
  | some c =>
    rw [hl] at h
    simp only [Bool.and_eq_true, Bool.not_eq_eq_eq_not, Bool.not_true] at h
    obtain ⟨hcomma, hbody⟩ := h
    have hsplit := getLast?_decomp s c hl
    have hne : s ≠ [] := by
      intro hnil
      rw [hnil] at hl
      simp at hl
    obtain ⟨hbne, hbchars, hbadj, hbhead⟩ := qaBody_sound withSubValues s.dropLast hbody
    refine ⟨hne, ?_, hbchars, ?_, ?_⟩
    · intro heq
      have hcc : c = ',' := by injection heq
      subst hcc
      exact absurd hcomma (by decide)
    · rw [← hsplit, hasAdjacentCommas_append_last s.dropLast c hcomma]
      exact hbadj
    · intro d hd
      apply hbhead
      rw [← hsplit] at hd
      cases hdl : s.dropLast with
      | nil => exact absurd hdl hbne
      | cons c0 r =>
        rw [hdl] at hd
        rw [show (c0 :: r) ++ [c] = c0 :: (r ++ [c]) from rfl] at hd
        simp only [List.head?_cons] at hd ⊢
        exact hd

theorem queryArray_ok_iff (allowed : List (List Char)) (unique withSubValues : Bool)
    (allowedSubValues : List (Option (List Char))) (s : List Char) :
    (∃ out, queryArray allowed unique withSubValues allowedSubValues s = .ok out) ↔
      (qaFormat withSubValues s = true ∧
       (unique = true → ((s.splitOn ',').map (qaKey withSubValues)).Nodup) ∧
       (allowed ≠ [] → ∀ k, k ∈ (s.splitOn ',').map (qaKey withSubValues) → k ∈ allowed) ∧
       (withSubValues = true → allowedSubValues ≠ [] →
          ∀ v2, v2 ∈ (s.splitOn ',').map (qaVal withSubValues) → v2 ∈ allowedSubValues)) := by
  have hspec := (qaRunFrom_spec unique withSubValues allowed allowedSubValues
      (s.splitOn ',') ⟨[], [], []⟩).1
  simp only [List.not_mem_nil, not_false_eq_true, implies_true, and_true, true_and] at hspec
  unfold queryArray
  by_cases hf : qaFormat withSubValues s = false
  · rw [if_pos hf]
    constructor
    · rintro ⟨out, hout⟩
      exact Except.noConfusion hout
    · rintro ⟨hft, -⟩
      rw [hft] at hf
      exact Bool.noConfusion hf
  · have hft : qaFormat withSubValues s = true := by
      cases hq : qaFormat withSubValues s
      · exact absurd hq hf
      · rfl
    rw [if_neg hf]
    by_cases hiss : (qaRunFrom unique withSubValues allowed allowedSubValues
        ⟨[], [], []⟩ (s.splitOn ',')).issues = []
    · rw [if_pos hiss]
      constructor
      · intro _
        obtain ⟨h1, h2, h3⟩ := hspec.mp hiss
        exact ⟨hft, h1, h2, h3⟩
      · intro _
        exact ⟨_, rfl⟩
    · rw [if_neg hiss]
      constructor
      · rintro ⟨out, hout⟩
        exact Except.noConfusion hout
      · rintro ⟨-, h1, h2, h3⟩
        exact absurd (hspec.mpr ⟨h1, h2, h3⟩) hiss

theorem qaRunFrom_issues_subset (unique withSubValues : Bool) (allowed : List (List Char))
    (allowedSubValues : List (Option (List Char))) :
    ∀ (L : List (List Char)) (st : QAState),
      (∀ m, m ∈ st.issues → m = qaInvalidFormatMsg ∨ m = qaInvalidValueMsg) →
      ∀ m, m ∈ (qaRunFrom unique withSubValues allowed allowedSubValues st L).issues →
        m = qaInvalidFormatMsg ∨ m = qaInvalidValueMsg := by
  intro L
  induction L with
  | nil =>
    intro st hst m hm
    exact hst m hm
  | cons e rest ih =>
    intro st hst m hm
    rw [show qaRunFrom unique withSubValues allowed allowedSubValues st (e :: rest)
        = qaRunFrom unique withSubValues allowed allowedSubValues
            (qaStep unique withSubValues allowed allowedSubValues st e) rest from rfl] at hm
    refine ih _ ?_ m hm
    intro m2 hm2
    unfold qaStep at hm2
    by_cases h1 : unique = true ∧ qaKey withSubValues e ∈ st.elementSet
    · rw [if_pos h1] at hm2
      simp only at hm2
      rcases List.mem_append.mp hm2 with hmem | hmem
      · exact hst m2 hmem
      · rw [List.mem_singleton] at hmem
        subst hmem
        exact Or.inr rfl
    · rw [if_neg h1] at hm2
      by_cases h2 : allowed ≠ [] ∧ qaKey withSubValues e ∉ allowed
      · rw [if_pos h2] at hm2
        simp only at hm2
        rcases List.mem_append.mp hm2 with hmem | hmem
        · exact hst m2 hmem
        · rw [List.mem_singleton] at hmem
          subst hmem
          exact Or.inr rfl
      · rw [if_neg h2] at hm2
        by_cases h3 : withSubValues = true ∧ allowedSubValues ≠ [] ∧
            qaVal withSubValues e ∉ allowedSubValues
        · rw [if_pos h3] at hm2
          simp only at hm2
          rcases List.mem_append.mp hm2 with hmem | hmem
          · exact hst m2 hmem
          · rw [List.mem_singleton] at hmem
            subst hmem
            exact Or.inr rfl
        · rw [if_neg h3] at hm2
          simp only at hm2
          exact hst m2 hm2

theorem queryArray_error_msgs (allowed : List (List Char)) (unique withSubValues : Bool)
    (allowedSubValues : List (Option (List Char))) (s : List Char)
    (msgs : List (List Char))
    (h : queryArray allowed unique withSubValues allowedSubValues s = .error msgs) :
    ∀ m, m ∈ msgs → m = qaInvalidFormatMsg ∨ m = qaInvalidValueMsg := by
  unfold queryArray at h
  by_cases hf : qaFormat withSubValues s = false
  · rw [if_pos hf] at h
    have : [qaInvalidFormatMsg] = msgs := by injection h
    subst this
    intro m hm
    rw [List.mem_singleton] at hm
    subst hm
    exact Or.inl rfl
  · rw [if_neg hf] at h
    by_cases hiss : (qaRunFrom unique withSubValues allowed allowedSubValues
        ⟨[], [], []⟩ (s.splitOn ',')).issues = []
    · rw [if_pos hiss] at h
      exact Except.noConfusion h
    · rw [if_neg hiss] at h
      have heq : (qaRunFrom unique withSubValues allowed allowedSubValues
          ⟨[], [], []⟩ (s.splitOn ',')).issues = msgs := by injection h
      intro m hm
      rw [← heq] at hm
      exact qaRunFrom_issues_subset unique withSubValues allowed allowedSubValues
        (s.splitOn ',') ⟨[], [], []⟩ (by intro m2 hm2; exact absurd hm2 (List.not_mem_nil m2))
        m hm

theorem queryArray_ok_format (allowed : List (List Char)) (unique withSubValues : Bool)
    (allowedSubValues : List (Option (List Char))) (s : List Char) (out : List QAElem)
    (h : queryArray allowed unique withSubValues allowedSubValues s = .ok out) :
    qaFormat withSubValues s = true := by
  unfold queryArray at h
  by_cases hf : qaFormat withSubValues s = false
  · rw [if_pos hf] at h
    exact Except.noConfusion h
  · cases hq : qaFormat withSubValues s
    · exact absurd hq hf
    · rfl

/-- C8 counterexample: the input string containing a space (in the final
position) is accepted by the default queryArray schema and parses
successfully, contradicting the claim that inputs containing spaces are
rejected — the format regexes end in `[^,]$`, which admits any non-comma
character as the last character. -/
theorem query_array_space_accepted :
    ' ' ∈ cs "foo " ∧
    queryArray [] false false [] (cs "foo ") = .ok [.plain (cs "foo ")] :=
  ⟨by decide, by decide⟩

/-- C8 (amended): `"foo,bar,buzz"` parses to the three plain strings and
`"foo:asc,bar,buzz:120"` with sub-value support parses to the three
key/sub-value pairs; every accepted input consists of word characters,
commas and (with sub-values) colons except that its final character may
be any non-comma character (so spaces and symbol characters are rejected
at every position but the last), and never has a leading, trailing or
adjacent comma; and acceptance is characterized exactly: the format
regex must match, duplicate keys are rejected precisely when the
uniqueness option is requested, keys outside the allow-list are rejected
precisely when a non-empty allow-list is supplied, and sub-values outside
the sub-value allow-list precisely when one is supplied. -/
theorem query_array_parsing :
    queryArray [] false false [] (cs "foo,bar,buzz") =
      .ok [.plain (cs "foo"), .plain (cs "bar"), .plain (cs "buzz")] ∧
    queryArray [] false true [] (cs "foo:asc,bar,buzz:120") =
      .ok [.pair (cs "foo") (some (cs "asc")), .pair (cs "bar") none,
           .pair (cs "buzz") (some (cs "120"))] ∧
    (∀ (allowed : List (List Char)) (unique withSubValues : Bool)
        (allowedSubValues : List (Option (List Char))) (s : List Char) (out : List QAElem),
      queryArray allowed unique withSubValues allowedSubValues s = .ok out →
        (∀ c, c ∈ s.dropLast → (qaWord c || c == ',' || (withSubValues && c == ':')) = true) ∧
        s.head? ≠ some ',' ∧ s.getLast? ≠ some ',' ∧ hasAdjacentCommas s = false) ∧
    (∀ (allowed : List (List Char)) (unique withSubValues : Bool)
        (allowedSubValues : List (Option (List Char))) (s : List Char),
      (∃ out, queryArray allowed unique withSubValues allowedSubValues s = .ok out) ↔
        (qaFormat withSubValues s = true ∧
         (unique = true → ((s.splitOn ',').map (qaKey withSubValues)).Nodup) ∧
         (allowed ≠ [] → ∀ k, k ∈ (s.splitOn ',').map (qaKey withSubValues) → k ∈ allowed) ∧
         (withSubValues = true → allowedSubValues ≠ [] →
            ∀ v2, v2 ∈ (s.splitOn ',').map (qaVal withSubValues) → v2 ∈ allowedSubValues))) := by
  refine ⟨by decide, by decide, ?_, queryArray_ok_iff⟩
  intro allowed unique withSubValues allowedSubValues s out h
  have hfmt := queryArray_ok_format allowed unique withSubValues allowedSubValues s out h
  obtain ⟨hne, hlast, hchars, hadj, hhead⟩ := qaFormat_sound withSubValues s hfmt
  refine ⟨?_, ?_, hlast, hadj⟩
  · intro c hc
    have := hchars c hc
    cases hw : withSubValues with
    | true =>
      rw [hw, if_pos rfl] at this
      simp only [qaSubChar, Bool.or_eq_true] at this
      simp only [Bool.or_eq_true, Bool.and_eq_true]
      rcases this with (hword | hcomma) | hcolon
      · exact Or.inl (Or.inl hword)
      · exact Or.inl (Or.inr hcomma)
      · exact Or.inr ⟨by trivial, hcolon⟩
    | false =>
      rw [hw, if_neg (by simp)] at this
      simp only [qaSimpleChar, Bool.or_eq_true] at this
      simp only [Bool.or_eq_true, Bool.and_eq_true]
      rcases this with hword | hcomma
      · exact Or.inl (Or.inl hword)
      · exact Or.inl (Or.inr hcomma)
  · intro hhc
    exact absurd (hhead ',' hhc) (by decide)

/-- Witness for C8 at the accepted input `"foo,bar,buzz"`, exercising the
structural rejection facts with their hypothesis discharged concretely. -/
theorem query_array_parsing_witness :
    (∀ c, c ∈ (cs "foo,bar,buzz").dropLast →
      (qaWord c || c == ',' || (false && c == ':')) = true) ∧
    (cs "foo,bar,buzz").head? ≠ some ',' ∧
    (cs "foo,bar,buzz").getLast? ≠ some ',' ∧
    hasAdjacentCommas (cs "foo,bar,buzz") = false :=
  query_array_parsing.2.2.1 [] false false [] (cs "foo,bar,buzz")
    [.plain (cs "foo"), .plain (cs "bar"), .plain (cs "buzz")] (by decide)

/-- C10: the `duplicate` message of every queryArray schema is the
encoded InvalidValue identifier (code 902), not the registered Duplicate
identifier (code 901): the source binds the `duplicate` key of the
factory map to `errorIDs.Request.QueryArray.InvalidValue`, a duplicate
element concretely produces exactly the encoded 902 identifier, and no
queryArray schema ever produces the encoded Duplicate identifier. -/
theorem duplicate_reported_as_invalid_value :
    qaDuplicateMsg = stringifyErrorID qaInvalidValueID ∧
    qaInvalidValueID.code = 902 ∧
    qaDuplicateID.code = 901 ∧
    queryArray [] true false [] (cs "foo,foo") =
      .error [stringifyErrorID qaInvalidValueID] ∧
    stringifyErrorID qaInvalidValueID =
      cs "902|Request query array value is not valid" ∧
    (∀ (allowed : List (List Char)) (unique withSubValues : Bool)
        (allowedSubValues : List (Option (List Char))) (s : List Char)
        (msgs : List (List Char)),
      queryArray allowed unique withSubValues allowedSubValues s = .error msgs →
        ∀ m, m ∈ msgs → m ≠ stringifyErrorID qaDuplicateID) := by
  refine ⟨rfl, rfl, rfl, by decide, by decide, ?_⟩
  intro allowed unique withSubValues allowedSubValues s msgs h m hm
  rcases queryArray_error_msgs allowed unique withSubValues allowedSubValues s msgs h m hm
    with rfl | rfl
  · decide
  · decide

/-- Witness for C10 at the concrete duplicate input. -/
theorem duplicate_reported_as_invalid_value_witness :
    stringifyErrorID qaInvalidValueID ≠ stringifyErrorID qaDuplicateID :=
  duplicate_reported_as_invalid_value.2.2.2.2.2 [] true false [] (cs "foo,foo")
    [stringifyErrorID qaInvalidValueID] (by decide)
    (stringifyErrorID qaInvalidValueID) (by decide)
